import Mathlib

/-!
Shallow embedding of the whisper_dummy_mcp meeting-audio pipeline
(`src/new_whisper_mcp/meeting_audio_mcp.py` and `src/new_whisper_mcp/server.py`).

Times are embedded as exact rationals (ℚ).  Python's `round(x, 2)` is embedded
as banker's rounding to two decimals over ℚ, and `str.strip()` as dropping
whitespace from both ends of the character list.  The pipeline's random draws
(segment durations, texts, chunk transcription outcomes) are passed in as
explicit arguments; fallible chunk transcription is embedded with `Except`.
-/

/-- CHUNK_DURATION_SEC = 20 (both source files). -/
def CHUNK_DURATION_SEC : ℚ := 20

/-- Banker's rounding of a rational to the nearest integer, as Python's
built-in `round` does: ties go to the even neighbour. -/
def pyRoundInt (q : ℚ) : ℤ :=
  if q - ⌊q⌋ < 1/2 then ⌊q⌋
  else if 1/2 < q - ⌊q⌋ then ⌊q⌋ + 1
  else if ⌊q⌋ % 2 = 0 then ⌊q⌋ else ⌊q⌋ + 1

/-- Python's `round(x, 2)`: round to two decimal places. -/
def round2 (q : ℚ) : ℚ := (pyRoundInt (q * 100) : ℚ) / 100

/-- Python's `str.strip()`: remove whitespace from both ends. -/
def pyStrip (s : String) : String :=
  ⟨((s.data.dropWhile Char.isWhitespace).reverse.dropWhile Char.isWhitespace).reverse⟩

/-- A rational with at most two decimal places (the form every timestamp
produced by `transcribe_chunk` and `diarize_audio` has, since the code rounds
every value with `round(_, 2)`). -/
def TwoDec (q : ℚ) : Prop := ∃ k : ℤ, q * 100 = (k : ℚ)

/-- One ASR segment, as produced by `transcribe_chunk`: `start`, `end`
(chunk-local seconds) and `text`.  The auxiliary fields (`id`, `seek`,
`tokens`, `temperature`, ...) carry no information used by the pipeline and
are omitted.  `end` is a reserved word in Lean, so the field is `stop`. -/
structure TranscriptSegment where
  start : ℚ
  stop : ℚ
  text : String
deriving DecidableEq

/-- One diarization segment, as produced by `diarize_audio`:
`{"speaker": ..., "start": ..., "end": ...}` in global time. -/
structure DiarizationSegment where
  speaker : String
  start : ℚ
  stop : ℚ
deriving DecidableEq

/-- One element of the result of `align_asr_with_diarization`:
`{"speaker": ..., "start": ..., "end": ..., "text": ...}`. -/
structure AlignedSegment where
  speaker : String
  start : ℚ
  stop : ℚ
  text : String
deriving DecidableEq

/-- The overlap test of `align_asr_with_diarization`:
`(a["start"] <= d["end"]) and (a["end"] >= d["start"])`. -/
def overlapB (a : TranscriptSegment) (d : DiarizationSegment) : Bool :=
  decide (a.start ≤ d.stop) && decide (a.stop ≥ d.start)

/-- The aligned record built when `a` matched `d`:
`{"speaker": d["speaker"], "start": round(a["start"], 2),
  "end": round(a["end"], 2), "text": a.get("text", "").strip()}`. -/
def mkAligned (a : TranscriptSegment) (d : DiarizationSegment) : AlignedSegment :=
  { speaker := d.speaker, start := round2 a.start, stop := round2 a.stop,
    text := pyStrip a.text }

/-- `align_asr_with_diarization` (meeting_audio_mcp.py, lines 162-180): for
each ASR segment the inner loop scans the diarization list in order and
`break`s at the first overlapping segment; segments with no overlap append
nothing. -/
def align_asr_with_diarization (asr : List TranscriptSegment)
    (diar : List DiarizationSegment) : List AlignedSegment :=
  asr.filterMap fun a => (diar.find? fun d => overlapB a d).map (mkAligned a)

/-- `full_text = " ".join([s["text"] for s in aligned_segments])`
(meeting_audio_mcp.py, line 221). -/
def full_transcript (segs : List AlignedSegment) : String :=
  String.intercalate " " (segs.map (·.text))

/-- `speakers = sorted({s["speaker"] for s in aligned_segments})`
(meeting_audio_mcp.py, line 222): the set of speaker ids, listed in
ascending order. -/
def speakersOf (segs : List AlignedSegment) : List String :=
  ((segs.map (·.speaker)).toFinset).sort (· ≤ ·)

/-- `duration = max((s["end"] for s in aligned_segments), default=0.0)`
(meeting_audio_mcp.py, line 223). -/
def durationOf (segs : List AlignedSegment) : ℚ :=
  match segs.map (·.stop) with
  | [] => 0
  | e :: es => es.foldl max e

/-- The timestamp adjustment of the chunk loop (meeting_audio_mcp.py,
lines 206-208): `s["start"] += offset; s["end"] += offset`. -/
def addOffset (off : ℚ) (s : TranscriptSegment) : TranscriptSegment :=
  { s with start := s.start + off, stop := s.stop + off }

/-- The chunk loop of `process_meeting_audio` (lines 203-212) restricted to
its timestamp bookkeeping: starting from offset `off`, each chunk's segments
are shifted by the running offset and concatenated; the offset then advances
by `CHUNK_DURATION_SEC`. -/
def normalizeFrom (off : ℚ) : List (List TranscriptSegment) → List TranscriptSegment
  | [] => []
  | c :: cs => c.map (addOffset off) ++ normalizeFrom (off + CHUNK_DURATION_SEC) cs

/-- The chunk loop of `process_meeting_audio` starting at `offset = 0.0`. -/
def normalizeChunks (cs : List (List TranscriptSegment)) : List TranscriptSegment :=
  normalizeFrom 0 cs

/-- The chunk loop of `process_meeting_audio` with fallible chunk
transcription: `segs = await transcribe_chunk(...)` is not wrapped in any
`try`/`except`, so an exception raised for one chunk propagates out of the
loop and aborts the whole pipeline (the surrounding `try`/`finally` only
removes the temporary file and re-raises). -/
def processChunksFrom (off : ℚ) :
    List (Except String (List TranscriptSegment)) →
      Except String (List TranscriptSegment)
  | [] => .ok []
  | .error e :: _ => .error e
  | .ok segs :: rs =>
    match processChunksFrom (off + CHUNK_DURATION_SEC) rs with
    | .error e => .error e
    | .ok rest => .ok (segs.map (addOffset off) ++ rest)

/-- The fallible chunk loop starting at `offset = 0.0`. -/
def process_meeting_chunks (rs : List (Except String (List TranscriptSegment))) :
    Except String (List TranscriptSegment) :=
  processChunksFrom 0 rs

/-- The segment-generation loop of `transcribe_chunk` (meeting_audio_mcp.py,
lines 101-126), with the random draws made explicit: each iteration draws a
duration and a text, then sets `start = round(current_time, 2)`,
`end = round(start + duration, 2)`, and advances `current_time = end`. -/
def transcribe_chunk_segments_from (cur : ℚ) :
    List (ℚ × String) → List TranscriptSegment
  | [] => []
  | (d, t) :: rest =>
    let s := round2 cur
    let e := round2 (s + d)
    ⟨s, e, t⟩ :: transcribe_chunk_segments_from e rest

/-- `transcribe_chunk`'s segments, starting from `current_time = 0.0`. -/
def transcribe_chunk_segments (draws : List (ℚ × String)) : List TranscriptSegment :=
  transcribe_chunk_segments_from 0 draws

/-- The constraint the code places on one chunk's random draws:
`num_segments = random.randint(2, 5)` and each duration is
`round(random.uniform(2.0, 5.0), 2)`, i.e. a two-decimal rational
in `[2, 5]`. -/
def ValidDraws (draws : List (ℚ × String)) : Prop :=
  2 ≤ draws.length ∧ draws.length ≤ 5 ∧
    ∀ p ∈ draws, TwoDec p.1 ∧ 2 ≤ p.1 ∧ p.1 ≤ 5

/-- The reference chain `transcribe_chunk_segments_from` computes when no
rounding ever changes a value: each segment spans `[cur, cur + d]` and the
next starts where the previous stopped. -/
def pureChain (cur : ℚ) : List (ℚ × String) → List TranscriptSegment
  | [] => []
  | (d, t) :: rest => ⟨cur, cur + d, t⟩ :: pureChain (cur + d) rest

/-- Content-type extraction in `download_audio` of meeting_audio_mcp.py
(line 67): `resp.headers.get("Content-Type")` — no default, so an absent
header yields `None`. -/
def download_audio_content_type (header : Option String) : Option String :=
  header

/-- Content-type extraction in `download_audio` of server.py (line 52):
`resp.headers.get("Content-Type", "audio/mpeg")`. -/
def server_download_audio_content_type (header : Option String) : String :=
  header.getD "audio/mpeg"

/-- The per-chunk loop of `transcribe_audio_generator` (server.py,
lines 99-108), with the chunk transcription outcomes made explicit: a
successful chunk yields its text plus a trailing space; a failed chunk is
caught and yields an inline error-marker string; either way the loop
continues with the next chunk.  `i` is the 1-based chunk counter of
`enumerate(chunks, 1)`. -/
def transcribe_audio_generator_from (i : ℕ) :
    List (Except String String) → List String
  | [] => []
  | .ok t :: rest => (t ++ " ") :: transcribe_audio_generator_from (i + 1) rest
  | .error e :: rest =>
    ("[Error transcribing chunk " ++ toString i ++ ": " ++ e ++ "] ") ::
      transcribe_audio_generator_from (i + 1) rest

/-- `transcribe_audio_generator`, whose enumeration starts at 1. -/
def transcribe_audio_generator (results : List (Except String String)) : List String :=
  transcribe_audio_generator_from 1 results

/-! ### Arithmetic helper lemmas -/

lemma pyRoundInt_intCast (k : ℤ) : pyRoundInt (k : ℚ) = k := by
  norm_num [pyRoundInt, Int.floor_intCast]

lemma round2_eq_self {q : ℚ} (h : TwoDec q) : round2 q = q := by
  obtain ⟨k, hk⟩ := h
  rw [round2, hk, pyRoundInt_intCast, eq_comm,
    eq_div_iff (by norm_num : (100 : ℚ) ≠ 0)]
  exact hk

lemma twoDec_zero : TwoDec 0 := ⟨0, by norm_num⟩

lemma twoDec_add {a b : ℚ} (ha : TwoDec a) (hb : TwoDec b) : TwoDec (a + b) := by
  obtain ⟨j, hj⟩ := ha
  obtain ⟨k, hk⟩ := hb
  exact ⟨j + k, by push_cast; linarith⟩

/-! ### The shape of a chunk's generated segments -/

lemma transcribe_eq_pureChain :
    ∀ (draws : List (ℚ × String)) (cur : ℚ), TwoDec cur →
      (∀ p ∈ draws, TwoDec p.1) →
      transcribe_chunk_segments_from cur draws = pureChain cur draws := by
  intro draws
  induction draws with
  | nil => intro cur _ _; rfl
  | cons p rest ih =>
    intro cur hc hd
    obtain ⟨d, t⟩ := p
    have hd0 : TwoDec d := hd (d, t) (List.mem_cons_self _ _)
    have h1 : round2 cur = cur := round2_eq_self hc
    have hsum : TwoDec (cur + d) := twoDec_add hc hd0
    have h2 : round2 (cur + d) = cur + d := round2_eq_self hsum
    simp only [transcribe_chunk_segments_from, pureChain, h1, h2]
    exact congrArg (List.cons _)
      (ih (cur + d) hsum fun q hq => hd q (List.mem_cons_of_mem _ hq))

lemma pureChain_start_lb :
    ∀ (draws : List (ℚ × String)) (cur : ℚ), (∀ p ∈ draws, 0 ≤ p.1) →
      ∀ s ∈ pureChain cur draws, cur ≤ s.start := by
  intro draws
  induction draws with
  | nil => intro cur _ s hs; simp [pureChain] at hs
  | cons p rest ih =>
    intro cur hd s hs
    obtain ⟨d, t⟩ := p
    rcases List.mem_cons.mp hs with h | h
    · subst h; exact le_refl _
    · have h0 : (0 : ℚ) ≤ d := hd (d, t) (List.mem_cons_self _ _)
      have := ih (cur + d) (fun q hq => hd q (List.mem_cons_of_mem _ hq)) s h
      linarith

lemma pureChain_start_ub :
    ∀ (draws : List (ℚ × String)) (cur : ℚ), (∀ p ∈ draws, p.1 ≤ 5) →
      ∀ s ∈ pureChain cur draws, s.start + 5 ≤ cur + 5 * draws.length := by
  intro draws
  induction draws with
  | nil => intro cur _ s hs; simp [pureChain] at hs
  | cons p rest ih =>
    intro cur hd s hs
    obtain ⟨d, t⟩ := p
    have hlen : (0 : ℚ) ≤ (rest.length : ℚ) := Nat.cast_nonneg _
    rcases List.mem_cons.mp hs with h | h
    · subst h
      simp only [List.length_cons]
      push_cast
      linarith
    · have h5 : d ≤ 5 := hd (d, t) (List.mem_cons_self _ _)
      have := ih (cur + d) (fun q hq => hd q (List.mem_cons_of_mem _ hq)) s h
      simp only [List.length_cons]
      push_cast
      linarith

lemma pureChain_stop_ub :
    ∀ (draws : List (ℚ × String)) (cur : ℚ), (∀ p ∈ draws, p.1 ≤ 5) →
      ∀ s ∈ pureChain cur draws, s.stop ≤ cur + 5 * draws.length := by
  intro draws
  induction draws with
  | nil => intro cur _ s hs; simp [pureChain] at hs
  | cons p rest ih =>
    intro cur hd s hs
    obtain ⟨d, t⟩ := p
    have hlen : (0 : ℚ) ≤ (rest.length : ℚ) := Nat.cast_nonneg _
    have h5 : d ≤ 5 := hd (d, t) (List.mem_cons_self _ _)
    rcases List.mem_cons.mp hs with h | h
    · subst h
      simp only [List.length_cons]
      push_cast
      linarith
    · have := ih (cur + d) (fun q hq => hd q (List.mem_cons_of_mem _ hq)) s h
      simp only [List.length_cons]
      push_cast
      linarith

lemma pureChain_mono :
    ∀ (draws : List (ℚ × String)) (cur : ℚ), (∀ p ∈ draws, 0 ≤ p.1) →
      List.Pairwise (fun s t : TranscriptSegment => s.start ≤ t.start)
        (pureChain cur draws) := by
  intro draws
  induction draws with
  | nil => intro cur _; simp [pureChain]
  | cons p rest ih =>
    intro cur hd
    obtain ⟨d, t⟩ := p
    have h0 : (0 : ℚ) ≤ d := hd (d, t) (List.mem_cons_self _ _)
    have htail : ∀ q ∈ rest, (0 : ℚ) ≤ q.1 :=
      fun q hq => hd q (List.mem_cons_of_mem _ hq)
    refine List.Pairwise.cons ?_ (ih (cur + d) htail)
    intro s hs
    have := pureChain_start_lb rest (cur + d) htail s hs
    show cur ≤ s.start
    linarith

lemma pureChain_chain' :
    ∀ (draws : List (ℚ × String)) (cur : ℚ),
      List.Chain' (fun s t => t.start = s.stop) (pureChain cur draws) := by
  intro draws
  induction draws with
  | nil => intro cur; simp [pureChain]
  | cons p rest ih =>
    intro cur
    obtain ⟨d, t⟩ := p
    cases rest with
    | nil => simp [pureChain]
    | cons q rest' =>
      obtain ⟨d', t'⟩ := q
      exact List.Chain'.cons rfl (ih (cur + d))

/-! ### Normalization lemmas -/

lemma normalizeFrom_eq (css : List (List TranscriptSegment)) :
    ∀ off : ℚ, normalizeFrom off css =
      (css.mapIdx fun i c =>
        c.map (addOffset (off + (i : ℚ) * CHUNK_DURATION_SEC))).flatten := by
  induction css with
  | nil => intro off; simp [normalizeFrom]
  | cons c cs ih =>
    intro off
    have hoff : ∀ i : ℕ, off + ((i : ℚ) + 1) * CHUNK_DURATION_SEC
        = off + CHUNK_DURATION_SEC + (i : ℚ) * CHUNK_DURATION_SEC := fun i => by ring
    simp only [normalizeFrom, List.mapIdx_cons, List.flatten_cons]
    rw [ih (off + CHUNK_DURATION_SEC)]
    congr 1
    · simp
    · have hfun : (fun (i : ℕ) (c' : List TranscriptSegment) =>
          List.map (addOffset (off + CHUNK_DURATION_SEC + (i : ℚ) * CHUNK_DURATION_SEC)) c')
          = fun (i : ℕ) (c' : List TranscriptSegment) =>
            List.map (addOffset (off + ((i + 1 : ℕ) : ℚ) * CHUNK_DURATION_SEC)) c' := by
        funext i c'
        push_cast
        rw [hoff i]
      rw [hfun]

lemma normalizeFrom_mono :
    ∀ (css : List (List TranscriptSegment)) (off : ℚ),
      (∀ c ∈ css,
        List.Pairwise (fun s t : TranscriptSegment => s.start ≤ t.start) c ∧
          ∀ s ∈ c, 0 ≤ s.start ∧ s.start ≤ CHUNK_DURATION_SEC) →
      List.Pairwise (fun s t : TranscriptSegment => s.start ≤ t.start)
          (normalizeFrom off css) ∧
        ∀ s ∈ normalizeFrom off css, off ≤ s.start := by
  intro css
  induction css with
  | nil => intro off _; simp [normalizeFrom]
  | cons c cs ih =>
    intro off h
    obtain ⟨hp, hb⟩ := h c (List.mem_cons_self _ _)
    obtain ⟨ihp, ihb⟩ :=
      ih (off + CHUNK_DURATION_SEC) fun c' hc' => h c' (List.mem_cons_of_mem _ hc')
    have hCD : (0 : ℚ) ≤ CHUNK_DURATION_SEC := by norm_num [CHUNK_DURATION_SEC]
    constructor
    · rw [normalizeFrom, List.pairwise_append]
      refine ⟨List.Pairwise.map _ (fun a b hab => ?_) hp, ihp, ?_⟩
      · show (addOffset off a).start ≤ (addOffset off b).start
        simp only [addOffset]
        linarith
      · intro x hx y hy
        obtain ⟨s, hs, rfl⟩ := List.mem_map.mp hx
        have h1 : s.start ≤ CHUNK_DURATION_SEC := (hb s hs).2
        have h2 : off + CHUNK_DURATION_SEC ≤ y.start := ihb y hy
        show (addOffset off s).start ≤ y.start
        simp only [addOffset]
        linarith
    · intro s hs
      rw [normalizeFrom] at hs
      rcases List.mem_append.mp hs with h1 | h2
      · obtain ⟨s', hs', rfl⟩ := List.mem_map.mp h1
        have := (hb s' hs').1
        simp only [addOffset]
        linarith
      · have := ihb s h2
        linarith

/-! ### Generic list helpers -/

lemma find?_append_first {α : Type} (p : α → Bool) :
    ∀ (pre : List α) (d : α) (post : List α), (∀ x ∈ pre, p x = false) →
      p d = true → List.find? p (pre ++ d :: post) = some d := by
  intro pre
  induction pre with
  | nil =>
    intro d post _ hd
    simp only [List.nil_append]
    exact List.find?_cons_of_pos _ hd
  | cons a rest ih =>
    intro d post hpre hd
    rw [List.cons_append, List.find?_cons_of_neg]
    · exact ih d post (fun x hx => hpre x (List.mem_cons_of_mem _ hx)) hd
    · simp [hpre a (List.mem_cons_self _ _)]

lemma foldl_max_spec (es : List ℚ) :
    ∀ e : ℚ, e ≤ es.foldl max e ∧ (∀ x ∈ es, x ≤ es.foldl max e) ∧
      (es.foldl max e = e ∨ es.foldl max e ∈ es) := by
  induction es with
  | nil => intro e; simp
  | cons x xs ih =>
    intro e
    simp only [List.foldl_cons]
    obtain ⟨h1, h2, h3⟩ := ih (max e x)
    refine ⟨le_trans (le_max_left e x) h1, ?_, ?_⟩
    · intro y hy
      rcases List.mem_cons.mp hy with rfl | hy'
      · exact le_trans (le_max_right e y) h1
      · exact h2 y hy'
    · rcases h3 with h | h
      · rcases max_cases e x with ⟨hm, _⟩ | ⟨hm, _⟩
        · left; rw [h, hm]
        · right; rw [h, hm]; exact List.mem_cons_self _ _
      · right; exact List.mem_cons_of_mem _ h

/-! ### Alignment helpers -/

lemma overlapB_eq_true_iff {a : TranscriptSegment} {d : DiarizationSegment} :
    overlapB a d = true ↔ (a.start ≤ d.stop ∧ d.start ≤ a.stop) := by
  simp [overlapB, ge_iff_le]

lemma overlapB_eq_false {a : TranscriptSegment} {d : DiarizationSegment}
    (h : ¬(a.start ≤ d.stop ∧ d.start ≤ a.stop)) : overlapB a d = false := by
  rw [← Bool.not_eq_true, overlapB_eq_true_iff]
  exact h

lemma align_cons_found {a : TranscriptSegment} {diar : List DiarizationSegment}
    {d : DiarizationSegment} (h : diar.find? (fun x => overlapB a x) = some d)
    (rest : List TranscriptSegment) :
    align_asr_with_diarization (a :: rest) diar =
      mkAligned a d :: align_asr_with_diarization rest diar := by
  simp [align_asr_with_diarization, List.filterMap_cons, h]

lemma align_drop {a : TranscriptSegment} {diar : List DiarizationSegment}
    (h : ∀ d ∈ diar, ¬(a.start ≤ d.stop ∧ d.start ≤ a.stop)) :
    ∀ xs ys : List TranscriptSegment,
      align_asr_with_diarization (xs ++ a :: ys) diar =
        align_asr_with_diarization xs diar ++ align_asr_with_diarization ys diar := by
  intro xs ys
  have hnone : diar.find? (fun x => overlapB a x) = none :=
    List.find?_eq_none.mpr fun d hd hc => h d hd (overlapB_eq_true_iff.mp hc)
  simp [align_asr_with_diarization, List.filterMap_append, List.filterMap_cons, hnone]

lemma mem_align {r : AlignedSegment} {asr : List TranscriptSegment}
    {diar : List DiarizationSegment} :
    r ∈ align_asr_with_diarization asr diar ↔
      ∃ a ∈ asr, ∃ d, diar.find? (fun x => overlapB a x) = some d ∧
        mkAligned a d = r := by
  simp [align_asr_with_diarization, List.mem_filterMap, Option.map_eq_some']

/-! ### Claim theorems -/

/-- Claim C1: for every transcript segment `a` and diarization list, the
aligner selects the first diarization segment `d` in list order satisfying
the inclusive test `a.start ≤ d.end ∧ a.end ≥ d.start`, and in particular a
transcript segment `{10, 12}` and a diarization segment `{12, 20}` (touching
at one boundary point) do overlap and produce an AlignedSegment labeled with
that diarization segment's speaker. -/
theorem claim_C1_first_overlap_wins :
    (∀ (a : TranscriptSegment) (pre : List DiarizationSegment)
        (d : DiarizationSegment) (post : List DiarizationSegment)
        (rest : List TranscriptSegment),
      (∀ d' ∈ pre, ¬(a.start ≤ d'.stop ∧ d'.start ≤ a.stop)) →
      a.start ≤ d.stop → d.start ≤ a.stop →
      align_asr_with_diarization (a :: rest) (pre ++ d :: post)
        = mkAligned a d :: align_asr_with_diarization rest (pre ++ d :: post)) ∧
    align_asr_with_diarization [⟨10, 12, "hello"⟩] [⟨"s1", 12, 20⟩]
      = [⟨"s1", 10, 12, "hello"⟩] := by
  constructor
  · intro a pre d post rest hpre h1 h2
    have hfind : (pre ++ d :: post).find? (fun x => overlapB a x) = some d :=
      find?_append_first _ pre d post (fun x hx => overlapB_eq_false (hpre x hx))
        (overlapB_eq_true_iff.mpr ⟨h1, h2⟩)
    exact align_cons_found hfind rest
  · have h10 : round2 (10 : ℚ) = 10 := round2_eq_self ⟨1000, by norm_num⟩
    have h12 : round2 (12 : ℚ) = 12 := round2_eq_self ⟨1200, by norm_num⟩
    have hfind : ([⟨"s1", 12, 20⟩] : List DiarizationSegment).find?
        (fun x => overlapB ⟨10, 12, "hello"⟩ x) = some ⟨"s1", 12, 20⟩ :=
      List.find?_cons_of_pos _ (overlapB_eq_true_iff.mpr
        ⟨by norm_num, by norm_num⟩)
    rw [align_cons_found hfind]
    dsimp only [mkAligned]
    rw [h10, h12]
    decide

/-- Witness for C1: the touching-boundary instance itself, with the
first-match hypotheses discharged concretely. -/
theorem claim_C1_witness :
    align_asr_with_diarization [⟨10, 12, "x"⟩]
        ([] ++ (⟨"s1", 12, 20⟩ : DiarizationSegment) :: [])
      = mkAligned ⟨10, 12, "x"⟩ ⟨"s1", 12, 20⟩
          :: align_asr_with_diarization []
              ([] ++ (⟨"s1", 12, 20⟩ : DiarizationSegment) :: []) :=
  claim_C1_first_overlap_wins.1 ⟨10, 12, "x"⟩ [] ⟨"s1", 12, 20⟩ [] []
    (by simp) (by norm_num) (by norm_num)

/-- Claim C5: a transcript segment overlapping no diarization segment
contributes no AlignedSegment and its text is absent from the full
transcript; the drop is silent and the other segments align unchanged. -/
theorem claim_C5_unmatched_segment_silently_dropped :
    ∀ (xs : List TranscriptSegment) (a : TranscriptSegment)
      (ys : List TranscriptSegment) (diar : List DiarizationSegment),
      (∀ d ∈ diar, ¬(a.start ≤ d.stop ∧ d.start ≤ a.stop)) →
      align_asr_with_diarization (xs ++ a :: ys) diar
          = align_asr_with_diarization xs diar ++ align_asr_with_diarization ys diar
        ∧ full_transcript (align_asr_with_diarization (xs ++ a :: ys) diar)
          = full_transcript (align_asr_with_diarization xs diar
              ++ align_asr_with_diarization ys diar) := by
  intro xs a ys diar h
  have he := align_drop h xs ys
  exact ⟨he, by rw [he]⟩

/-- Witness for C5: a segment at `[30, 31]` against a single diarization
segment `[0, 10]` is dropped. -/
theorem claim_C5_witness :
    align_asr_with_diarization ([⟨0, 5, "hi"⟩] ++ (⟨30, 31, "gone"⟩ : TranscriptSegment) :: [])
        [⟨"s1", 0, 10⟩]
      = align_asr_with_diarization [⟨0, 5, "hi"⟩] [⟨"s1", 0, 10⟩]
          ++ align_asr_with_diarization [] [⟨"s1", 0, 10⟩] :=
  (claim_C5_unmatched_segment_silently_dropped [⟨0, 5, "hi"⟩] ⟨30, 31, "gone"⟩ []
    [⟨"s1", 0, 10⟩] (by intro d hd; rw [List.mem_singleton] at hd; subst hd; norm_num)).1

/-- Counterexample to claim C6: the aligner does not copy the transcript
segment's bounds verbatim — it applies `round(_, 2)`.  A transcript segment
starting at 1/3 produces an aligned start of 33/100 ≠ 1/3. -/
theorem claim_C6_counterexample :
    align_asr_with_diarization [⟨1/3, 1, "t"⟩] [⟨"s1", 0, 10⟩]
        = [⟨"s1", 33/100, 1, "t"⟩] ∧ ((33 : ℚ)/100 ≠ 1/3) := by
  constructor
  · have hfind : ([⟨"s1", 0, 10⟩] : List DiarizationSegment).find?
        (fun x => overlapB ⟨1/3, 1, "t"⟩ x) = some ⟨"s1", 0, 10⟩ :=
      List.find?_cons_of_pos _ (overlapB_eq_true_iff.mpr
        ⟨by norm_num, by norm_num⟩)
    rw [align_cons_found hfind]
    dsimp only [mkAligned]
    have h1 : round2 ((1 : ℚ)/3) = 33/100 := by
      have hfl : ⌊(1 : ℚ)/3 * 100⌋ = (33 : ℤ) := by
        rw [Int.floor_eq_iff]
        constructor <;> norm_num
      simp only [round2, pyRoundInt, hfl]
      norm_num
    have h2 : round2 (1 : ℚ) = 1 := round2_eq_self ⟨100, by norm_num⟩
    have ht : pyStrip "t" = "t" := by decide
    rw [h1, h2]
    simp [align_asr_with_diarization, ht]
  · norm_num

/-- Claim C6 as amended: every AlignedSegment's bounds are the matched
transcript segment's bounds rounded to two decimals (the diarization segment
contributes only the speaker label); whenever those bounds already have at
most two decimals — as every bound produced by this pipeline does — the copy
is verbatim. -/
theorem claim_C6_bounds_from_transcript_rounded :
    ∀ (asr : List TranscriptSegment) (diar : List DiarizationSegment)
      (r : AlignedSegment), r ∈ align_asr_with_diarization asr diar →
      ∃ a ∈ asr, ∃ d ∈ diar,
        r.speaker = d.speaker ∧ r.start = round2 a.start ∧
          r.stop = round2 a.stop ∧ r.text = pyStrip a.text ∧
          (TwoDec a.start → r.start = a.start) ∧
          (TwoDec a.stop → r.stop = a.stop) := by
  intro asr diar r hr
  obtain ⟨a, ha, d, hfind, heq⟩ := mem_align.mp hr
  refine ⟨a, ha, d, List.mem_of_find?_eq_some hfind, ?_⟩
  subst heq
  refine ⟨rfl, rfl, rfl, rfl, ?_, ?_⟩
  · intro h
    exact round2_eq_self h
  · intro h
    exact round2_eq_self h

/-- Witness for C6 (amended): the aligned segment built from a transcript
segment `[0, 5]` against a diarization segment `[0, 10]`. -/
theorem claim_C6_witness :
    mkAligned ⟨0, 5, "hi"⟩ ⟨"s1", 0, 10⟩
        ∈ align_asr_with_diarization [⟨0, 5, "hi"⟩] [⟨"s1", 0, 10⟩] ∧
      ∃ a ∈ ([⟨0, 5, "hi"⟩] : List TranscriptSegment),
        ∃ d ∈ ([⟨"s1", 0, 10⟩] : List DiarizationSegment),
          (mkAligned ⟨0, 5, "hi"⟩ ⟨"s1", 0, 10⟩).speaker = d.speaker ∧
            (mkAligned ⟨0, 5, "hi"⟩ ⟨"s1", 0, 10⟩).start = round2 a.start ∧
            (mkAligned ⟨0, 5, "hi"⟩ ⟨"s1", 0, 10⟩).stop = round2 a.stop ∧
            (mkAligned ⟨0, 5, "hi"⟩ ⟨"s1", 0, 10⟩).text = pyStrip a.text ∧
            (TwoDec a.start → (mkAligned ⟨0, 5, "hi"⟩ ⟨"s1", 0, 10⟩).start = a.start) ∧
            (TwoDec a.stop → (mkAligned ⟨0, 5, "hi"⟩ ⟨"s1", 0, 10⟩).stop = a.stop) := by
  have hfind : ([⟨"s1", 0, 10⟩] : List DiarizationSegment).find?
      (fun x => overlapB ⟨0, 5, "hi"⟩ x) = some ⟨"s1", 0, 10⟩ :=
    List.find?_cons_of_pos _ (overlapB_eq_true_iff.mpr ⟨by norm_num, by norm_num⟩)
  have hmem : mkAligned ⟨0, 5, "hi"⟩ ⟨"s1", 0, 10⟩
      ∈ align_asr_with_diarization [⟨0, 5, "hi"⟩] [⟨"s1", 0, 10⟩] := by
    rw [align_cons_found hfind]
    exact List.mem_cons_self _ _
  exact ⟨hmem, claim_C6_bounds_from_transcript_rounded _ _ _ hmem⟩

/-- Counterexample to claim C7: in meeting_audio_mcp.py, `download_audio`
reads the Content-Type header with no default, so an absent header is
surfaced as an absent value, not as a generic audio MIME type. -/
theorem claim_C7_counterexample :
    download_audio_content_type none = none ∧
      download_audio_content_type none ≠ some "audio/mpeg" :=
  ⟨rfl, by simp [download_audio_content_type]⟩

/-- Claim C7 as amended: both fetchers return the response's declared
content type when the header is present; when it is absent, server.py's
fetcher defaults to the generic audio MIME type "audio/mpeg", while
meeting_audio_mcp.py's fetcher returns the absent value (`None`). -/
theorem claim_C7_content_type_behavior :
    (∀ ct : String, download_audio_content_type (some ct) = some ct) ∧
      download_audio_content_type none = none ∧
      (∀ ct : String, server_download_audio_content_type (some ct) = ct) ∧
      server_download_audio_content_type none = "audio/mpeg" :=
  ⟨fun _ => rfl, rfl, fun _ => rfl, rfl⟩

/-! ### Chunk-failure helpers -/

lemma processChunksFrom_error :
    ∀ (pre : List (Except String (List TranscriptSegment))) (off : ℚ) (e : String)
      (rest : List (Except String (List TranscriptSegment))),
      (∀ r ∈ pre, ∃ segs, r = Except.ok segs) →
      processChunksFrom off (pre ++ Except.error e :: rest) = Except.error e := by
  intro pre
  induction pre with
  | nil => intro off e rest _; rfl
  | cons r pre' ih =>
    intro off e rest h
    obtain ⟨segs, rfl⟩ := h r (List.mem_cons_self _ _)
    have htail := ih (off + CHUNK_DURATION_SEC) e rest
      fun r' hr' => h r' (List.mem_cons_of_mem _ hr')
    rw [List.cons_append]
    show (match processChunksFrom (off + CHUNK_DURATION_SEC)
        (pre' ++ Except.error e :: rest) with
      | .error er => Except.error er
      | .ok rest' => Except.ok (segs.map (addOffset off) ++ rest'))
        = Except.error e
    rw [htail]

lemma transcribe_audio_generator_from_length :
    ∀ (results : List (Except String String)) (i : ℕ),
      (transcribe_audio_generator_from i results).length = results.length := by
  intro results
  induction results with
  | nil => intro i; rfl
  | cons r rest ih =>
    intro i
    cases r with
    | ok t => simp [transcribe_audio_generator_from, ih]
    | error e => simp [transcribe_audio_generator_from, ih]

/-- Counterexample to claim C2: in `process_meeting_audio` a chunk
transcription failure is not absorbed — with a failing first chunk and a
succeeding second chunk, the pipeline's chunk loop propagates the error
instead of returning the successful chunk's (offset-adjusted) segments. -/
theorem claim_C2_counterexample :
    process_meeting_chunks [Except.error "boom", Except.ok [⟨0, 5, "hello"⟩]]
        = Except.error "boom" ∧
      process_meeting_chunks [Except.error "boom", Except.ok [⟨0, 5, "hello"⟩]]
        ≠ Except.ok [⟨20, 25, "hello"⟩] := by
  refine ⟨rfl, ?_⟩
  intro h
  rw [show process_meeting_chunks [Except.error "boom", Except.ok [⟨0, 5, "hello"⟩]]
      = Except.error "boom" from rfl] at h
  exact absurd h (by simp)

/-- Claim C2 as amended: in `process_meeting_audio` a chunk transcription
failure propagates as a fatal error and aborts the pipeline (any prefix of
successful chunks is discarded); in the server.py `transcribe_audio_generator`
variant a chunk failure does not abort — every chunk still yields an output —
but the failed chunk contributes an inline error-marker string rather than
being dropped. -/
theorem claim_C2_chunk_failure_behavior :
    (∀ (pre : List (Except String (List TranscriptSegment))) (e : String)
        (rest : List (Except String (List TranscriptSegment))),
      (∀ r ∈ pre, ∃ segs, r = Except.ok segs) →
      process_meeting_chunks (pre ++ Except.error e :: rest) = Except.error e) ∧
    (∀ results : List (Except String String),
      (transcribe_audio_generator results).length = results.length) ∧
    transcribe_audio_generator [Except.error "boom", Except.ok "hello"]
      = ["[Error transcribing chunk 1: boom] ", "hello "] := by
  refine ⟨?_, ?_, rfl⟩
  · intro pre e rest h
    exact processChunksFrom_error pre 0 e rest h
  · intro results
    exact transcribe_audio_generator_from_length results 1

/-- Witness for C2 (amended): a successful chunk followed by a failing one;
the loop returns the failure. -/
theorem claim_C2_witness :
    (∀ r ∈ [(Except.ok [(⟨0, 1, "a"⟩ : TranscriptSegment)] :
        Except String (List TranscriptSegment))], ∃ segs, r = Except.ok segs) ∧
      process_meeting_chunks
          ([(Except.ok [(⟨0, 1, "a"⟩ : TranscriptSegment)] :
            Except String (List TranscriptSegment))] ++ Except.error "x" :: [])
        = Except.error "x" := by
  have h : ∀ r ∈ [(Except.ok [(⟨0, 1, "a"⟩ : TranscriptSegment)] :
      Except String (List TranscriptSegment))], ∃ segs, r = Except.ok segs := by
    intro r hr
    rw [List.mem_singleton] at hr
    exact ⟨_, hr⟩
  exact ⟨h, claim_C2_chunk_failure_behavior.1 _ "x" [] h⟩

/-- Claim C3: normalization shifts chunk `i`'s local segments `{start, end}`
to exactly `{start + i * CHUNK_DURATION_SEC, end + i * CHUNK_DURATION_SEC}`:
the offset added to chunk `i` is `i * CHUNK_DURATION_SEC` for every `i`. -/
theorem claim_C3_offset_is_index_times_duration :
    ∀ cs : List (List TranscriptSegment),
      normalizeChunks cs =
        (cs.mapIdx fun i c =>
          c.map fun s =>
            ⟨s.start + (i : ℚ) * CHUNK_DURATION_SEC,
             s.stop + (i : ℚ) * CHUNK_DURATION_SEC, s.text⟩).flatten := by
  intro cs
  have hfun : (fun (i : ℕ) (c : List TranscriptSegment) =>
      c.map (addOffset (0 + (i : ℚ) * CHUNK_DURATION_SEC)))
      = fun (i : ℕ) (c : List TranscriptSegment) =>
        c.map fun s =>
          ⟨s.start + (i : ℚ) * CHUNK_DURATION_SEC,
           s.stop + (i : ℚ) * CHUNK_DURATION_SEC, s.text⟩ := by
    funext i c
    congr 1
    funext s
    simp [addOffset]
  rw [normalizeChunks, normalizeFrom_eq, hfun]

/-- Claim C4: the normalized sequence is the chunk-order concatenation of the
chunks' segment lists (each kept in returned order, no re-sorting), and for
every family of chunk outputs `transcribe_chunk` can produce, this
concatenation is nevertheless monotonically non-decreasing in global start
time. -/
theorem claim_C4_concatenation_is_time_ordered :
    ∀ dss : List (List (ℚ × String)), (∀ ds ∈ dss, ValidDraws ds) →
      normalizeChunks (dss.map transcribe_chunk_segments)
          = ((dss.map transcribe_chunk_segments).mapIdx fun i c =>
              c.map (addOffset ((i : ℚ) * CHUNK_DURATION_SEC))).flatten ∧
        List.Sorted (· ≤ ·)
          ((normalizeChunks (dss.map transcribe_chunk_segments)).map (·.start)) := by
  intro dss h
  constructor
  · have hfun : (fun (i : ℕ) (c : List TranscriptSegment) =>
        c.map (addOffset (0 + (i : ℚ) * CHUNK_DURATION_SEC)))
        = fun (i : ℕ) (c : List TranscriptSegment) =>
          c.map (addOffset ((i : ℚ) * CHUNK_DURATION_SEC)) := by
      funext i c
      rw [zero_add]
    rw [normalizeChunks, normalizeFrom_eq, hfun]
  · have hshape : ∀ c ∈ dss.map transcribe_chunk_segments,
        List.Pairwise (fun s t : TranscriptSegment => s.start ≤ t.start) c ∧
          ∀ s ∈ c, 0 ≤ s.start ∧ s.start ≤ CHUNK_DURATION_SEC := by
      intro c hc
      obtain ⟨ds, hds, rfl⟩ := List.mem_map.mp hc
      obtain ⟨hlen2, hlen5, hall⟩ := h ds hds
      have htd : ∀ p ∈ ds, TwoDec p.1 := fun p hp => (hall p hp).1
      have heq : transcribe_chunk_segments ds = pureChain 0 ds :=
        transcribe_eq_pureChain ds 0 twoDec_zero htd
      have hnn : ∀ p ∈ ds, (0 : ℚ) ≤ p.1 :=
        fun p hp => le_trans (by norm_num) (hall p hp).2.1
      have hub : ∀ p ∈ ds, p.1 ≤ 5 := fun p hp => (hall p hp).2.2
      rw [heq]
      refine ⟨pureChain_mono ds 0 hnn, ?_⟩
      intro s hs
      refine ⟨pureChain_start_lb ds 0 hnn s hs, ?_⟩
      have hu := pureChain_start_ub ds 0 hub s hs
      have hl : (ds.length : ℚ) ≤ 5 := by exact_mod_cast hlen5
      show s.start ≤ (20 : ℚ)
      linarith
    have hmono := (normalizeFrom_mono (dss.map transcribe_chunk_segments) 0 hshape).1
    rw [normalizeChunks]
    exact List.pairwise_map.mpr hmono

/-- Witness for C4: two chunks, each generated from two draws of duration 2
seconds; the concatenated normalized starts are non-decreasing. -/
theorem claim_C4_witness :
    (∀ ds ∈ [[((2 : ℚ), "a"), (2, "a")], [((2 : ℚ), "a"), (2, "a")]], ValidDraws ds) ∧
      List.Sorted (· ≤ ·)
        ((normalizeChunks ([[((2 : ℚ), "a"), (2, "a")], [((2 : ℚ), "a"), (2, "a")]].map
            transcribe_chunk_segments)).map (·.start)) := by
  have hv : ∀ ds ∈ [[((2 : ℚ), "a"), (2, "a")], [((2 : ℚ), "a"), (2, "a")]],
      ValidDraws ds := by
    intro ds hds
    have hd : ds = [((2 : ℚ), "a"), (2, "a")] := by
      simp only [List.mem_cons, List.not_mem_nil, or_false] at hds
      rcases hds with h | h <;> exact h
    rw [hd]
    refine ⟨by norm_num, by norm_num, ?_⟩
    intro p hp
    have hp' : p = ((2 : ℚ), "a") := by
      simp only [List.mem_cons, List.not_mem_nil, or_false] at hp
      rcases hp with h | h <;> exact h
    rw [hp']
    exact ⟨⟨200, by norm_num⟩, by norm_num, by norm_num⟩
  exact ⟨hv, (claim_C4_concatenation_is_time_ordered _ hv).2⟩

/-- Claim C8: the response's duration equals the maximum `end` over the
AlignedSegment list, and equals 0 when the list is empty. -/
theorem claim_C8_duration_is_max_stop :
    ∀ segs : List AlignedSegment,
      (segs = [] → durationOf segs = 0) ∧
        (∀ s ∈ segs, s.stop ≤ durationOf segs) ∧
        (segs ≠ [] → ∃ s ∈ segs, durationOf segs = s.stop) := by
  intro segs
  cases segs with
  | nil => exact ⟨fun _ => rfl, by simp, fun h => absurd rfl h⟩
  | cons a l =>
    have hd : durationOf (a :: l) = (l.map (·.stop)).foldl max a.stop := rfl
    have hspec := foldl_max_spec (l.map (·.stop)) a.stop
    refine ⟨fun h => List.noConfusion h, ?_, fun _ => ?_⟩
    · intro s hs
      rcases List.mem_cons.mp hs with rfl | hs'
      · rw [hd]; exact hspec.1
      · rw [hd]; exact hspec.2.1 _ (List.mem_map_of_mem _ hs')
    · rcases hspec.2.2 with h | h
      · exact ⟨a, List.mem_cons_self _ _, by rw [hd, h]⟩
      · obtain ⟨s, hs, hse⟩ := List.mem_map.mp h
        exact ⟨s, List.mem_cons_of_mem _ hs, by rw [hd, ← hse]⟩

/-- Witness for C8: the empty list gives duration 0, and a singleton list's
duration is attained by its own segment. -/
theorem claim_C8_witness :
    durationOf [] = 0 ∧
      ∃ s ∈ ([⟨"s1", 0, 5, "a"⟩] : List AlignedSegment),
        durationOf [⟨"s1", 0, 5, "a"⟩] = s.stop :=
  ⟨(claim_C8_duration_is_max_stop []).1 rfl,
    (claim_C8_duration_is_max_stop [⟨"s1", 0, 5, "a"⟩]).2.2 (by simp)⟩

/-- Claim C9: the speakers field is sorted ascending, contains no
duplicates, and its elements are exactly the speaker ids appearing in the
AlignedSegments. -/
theorem claim_C9_speakers_sorted_dedup :
    ∀ segs : List AlignedSegment,
      List.Sorted (· ≤ ·) (speakersOf segs) ∧ (speakersOf segs).Nodup ∧
        ∀ x : String, x ∈ speakersOf segs ↔ ∃ s ∈ segs, s.speaker = x := by
  intro segs
  refine ⟨Finset.sort_sorted _ _, Finset.sort_nodup _ _, ?_⟩
  intro x
  simp [speakersOf, Finset.mem_sort, List.mem_toFinset, List.mem_map]

/-- Claim C10: for every outcome of the random draws, a chunk's local
segments form a contiguous chain — the first starts at 0 and each subsequent
segment starts where the previous one ended — yet the last segment's end can
exceed CHUNK_DURATION_SEC = 20 (it is bounded by 5 segments of at most 5
seconds, i.e. 25), so a chunk's normalized segments can extend into the next
chunk's global window. -/
theorem claim_C10_chunk_chain_can_overrun :
    ∀ draws : List (ℚ × String), ValidDraws draws →
      (∃ s₀ l, transcribe_chunk_segments draws = s₀ :: l ∧ s₀.start = 0) ∧
        List.Chain' (fun s t => t.start = s.stop) (transcribe_chunk_segments draws) ∧
        (∀ s ∈ transcribe_chunk_segments draws, s.stop ≤ 25) ∧
        (CHUNK_DURATION_SEC = 20 ∧
          ∃ s ∈ transcribe_chunk_segments (List.replicate 5 ((5 : ℚ), "x")),
            CHUNK_DURATION_SEC < s.stop) := by
  intro draws hv
  obtain ⟨hlen2, hlen5, hall⟩ := hv
  have htd : ∀ p ∈ draws, TwoDec p.1 := fun p hp => (hall p hp).1
  have heq : transcribe_chunk_segments draws = pureChain 0 draws :=
    transcribe_eq_pureChain draws 0 twoDec_zero htd
  refine ⟨?_, ?_, ?_, rfl, ?_⟩
  · cases draws with
    | nil => simp at hlen2
    | cons p rest =>
      obtain ⟨d, t⟩ := p
      rw [heq]
      exact ⟨⟨0, 0 + d, t⟩, pureChain (0 + d) rest, rfl, rfl⟩
  · rw [heq]
    exact pureChain_chain' draws 0
  · rw [heq]
    intro s hs
    have hub : ∀ p ∈ draws, p.1 ≤ 5 := fun p hp => (hall p hp).2.2
    have := pureChain_stop_ub draws 0 hub s hs
    have hl : (draws.length : ℚ) ≤ 5 := by exact_mod_cast hlen5
    linarith
  · have htd5 : ∀ p ∈ List.replicate 5 ((5 : ℚ), "x"), TwoDec p.1 := by
      intro p hp
      rw [List.eq_of_mem_replicate hp]
      exact ⟨500, by norm_num⟩
    have heq5 : transcribe_chunk_segments (List.replicate 5 ((5 : ℚ), "x"))
        = pureChain 0 (List.replicate 5 ((5 : ℚ), "x")) :=
      transcribe_eq_pureChain _ 0 twoDec_zero htd5
    rw [heq5]
    refine ⟨⟨0 + 5 + 5 + 5 + 5, 0 + 5 + 5 + 5 + 5 + 5, "x"⟩, ?_, ?_⟩
    · show _ ∈ pureChain 0 (List.replicate 5 ((5 : ℚ), "x"))
      simp [pureChain, List.replicate]
    · show CHUNK_DURATION_SEC < ((0 : ℚ) + 5 + 5 + 5 + 5 + 5)
      rw [CHUNK_DURATION_SEC]
      norm_num

/-- Witness for C10: two draws of 2 seconds each form valid draws, and the
chain property holds for them. -/
theorem claim_C10_witness :
    ValidDraws [((2 : ℚ), "a"), (2, "a")] ∧
      List.Chain' (fun s t => t.start = s.stop)
        (transcribe_chunk_segments [((2 : ℚ), "a"), (2, "a")]) := by
  have hv : ValidDraws [((2 : ℚ), "a"), (2, "a")] := by
    refine ⟨by norm_num, by norm_num, ?_⟩
    intro p hp
    have hp' : p = ((2 : ℚ), "a") := by
      simp only [List.mem_cons, List.not_mem_nil, or_false] at hp
      rcases hp with h | h <;> exact h
    rw [hp']
    exact ⟨⟨200, by norm_num⟩, by norm_num, by norm_num⟩
  exact ⟨hv, (claim_C10_chunk_chain_can_overrun _ hv).2.1⟩
